/-
Verification of the ranked-set core (`src/rel_vec.rs`) against its
natural-language specification.

The Rust module is shallowly embedded: `RelVec` is modelled by its entry
list (`List RelEntry`); the `ThreadRng` randomness source is modelled by
passing the values drawn from it (`gen_range` results, shuffle outcomes)
as explicit parameters; `u32` counters are `Nat` with wrapping `% 2^32`
made explicit where the Rust release-mode multiplication can wrap; the
`f64` values produced by `percentage` are modelled by a small inductive
`F64` that tracks the NaN / infinity structure exactly and keeps finite
values as exact rationals.
-/
import Mathlib

set_option linter.unusedVariables false

open List (Sublist)

/-- One ranked item: `RelEntry` from `rel_vec.rs` (`name`, `wins : u32`,
`votes : u32`, `locked : bool`). -/
structure RelEntry where
  name : String
  wins : Nat
  votes : Nat
  locked : Bool
deriving DecidableEq, Repr

instance : Inhabited RelEntry := ⟨⟨"", 0, 0, false⟩⟩

/-- Model of the `f64` values arising from `RelEntry::percentage`:
NaN, the two infinities, or a finite value kept as an exact rational.
(The real `f64` rounds the finite quotient; no theorem below depends on
that rounding, only on the NaN/infinity structure and exactness of `0`.) -/
inductive F64 where
  | nan : F64
  | inf : F64
  | neginf : F64
  | val : ℚ → F64
deriving DecidableEq

/-- IEEE-754 subtraction restricted to the values of `F64`:
any NaN operand gives NaN, `∞ - ∞` gives NaN, otherwise the usual rules. -/
def F64.sub : F64 → F64 → F64
  | .nan, _ => .nan
  | _, .nan => .nan
  | .inf, .inf => .nan
  | .inf, .neginf => .inf
  | .inf, .val _ => .inf
  | .neginf, .inf => .neginf
  | .neginf, .neginf => .nan
  | .neginf, .val _ => .neginf
  | .val _, .inf => .neginf
  | .val _, .neginf => .inf
  | .val a, .val b => .val (a - b)

/-- IEEE-754 absolute value on `F64`. -/
def F64.abs : F64 → F64
  | .nan => .nan
  | .inf => .inf
  | .neginf => .inf
  | .val a => .val |a|

/-- IEEE-754 `<` on `F64`: false whenever either side is NaN. -/
def F64.flt : F64 → F64 → Bool
  | .nan, _ => false
  | _, .nan => false
  | .inf, _ => false
  | .neginf, .neginf => false
  | .neginf, _ => true
  | .val _, .inf => true
  | .val _, .neginf => false
  | .val a, .val b => decide (a < b)

/-- `f64::EPSILON = 2^-52`, exactly representable. -/
def f64Epsilon : F64 := .val (1 / 2 ^ 52)

/-- `RelEntry::percentage`: `f64::from(wins) * 100.0 / f64::from(votes)`.
With `votes = 0` this is `0.0/0.0 = NaN` when `wins = 0` and
`positive/0.0 = +∞` when `wins > 0`; otherwise it is the quotient
`100 * wins / votes` (exactly representable numerator `wins * 100 < 2^53`;
the model keeps the quotient exact where `f64` would round it). -/
def percentage (e : RelEntry) : F64 :=
  if e.votes = 0 then (if e.wins = 0 then .nan else .inf)
  else .val ((100 * e.wins : ℚ) / (e.votes : ℚ))

/-- `RelEntry::compare_percentage`: compares the cross products
`self.wins * other.votes` and `other.wins * self.votes`, both computed in
`u32` arithmetic, which wraps modulo `2^32` in release builds. -/
def comparePercentage (a b : RelEntry) : Ordering :=
  compare ((a.wins * b.votes) % 2 ^ 32) ((b.wins * a.votes) % 2 ^ 32)

/-- The comparison `RelVec::sort_percentage` hands to `Vec::sort_by`:
`a.compare_percentage(b).reverse()`.  `sortLe a b` is true when the
stable sort may keep `a` before `b`, i.e. when that comparison is not
`Greater`. -/
def sortLe (a b : RelEntry) : Bool :=
  (comparePercentage a b).swap ≠ Ordering.gt

/-- Stable insertion of `a` into `l`: `a` goes before the first element
`b` with `sortLe a b`. -/
def insortOne (a : RelEntry) : List RelEntry → List RelEntry
  | [] => [a]
  | b :: bs => if sortLe a b then a :: b :: bs else b :: insortOne a bs

/-- `RelVec::sort_percentage`, modelled as a stable sort by `sortLe`
(Rust's `sort_by` is stable; the comparator here is not a total order,
so Rust leaves the exact order unspecified in general — the theorems
below only evaluate this model on two-element lists, where every stable
sort, including Rust's, behaves identically: it swaps the two elements
iff the comparator orders them strictly). -/
def sortPercentage (l : List RelEntry) : List RelEntry :=
  l.foldr insortOne []

/-- `RelVec::remove(filter)` = `Vec::retain(|i| !filter(i))`. -/
def removeEntries (p : RelEntry → Bool) (l : List RelEntry) : List RelEntry :=
  l.filter (fun e => !(p e))

/-- `RelVec::reduced`: indices of the unlocked entries
(`enumerate`, filter on `!locked`, keep the indices). -/
def reduced (l : List RelEntry) : List Nat :=
  (l.enum.filter (fun p => !p.2.locked)).map Prod.fst

/-- The loop body of `RelVec::min_votes`, iterating over the enumerated
entries with the running minimum `m` and accumulator `v`:
skip locked; a strictly smaller votes count resets the accumulator;
an equal one appends; a larger one is ignored. -/
def minVotesGo : List (Nat × RelEntry) → Nat → List Nat → List Nat
  | [], _, v => v
  | (i, e) :: rest, m, v =>
    if e.locked then minVotesGo rest m v
    else if e.votes < m then minVotesGo rest e.votes [i]
    else if e.votes = m then minVotesGo rest m (v ++ [i])
    else minVotesGo rest m v

/-- `RelVec::min_votes`: the loop started with `min = u32::max_value()`
and an empty accumulator. -/
def minVotes (l : List RelEntry) : List Nat :=
  minVotesGo l.enum (2 ^ 32 - 1) []

/-- `RelVec::random_pair`.  `r1` and `r2` are the two values the Rust
code draws with `gen_range(0..reduced.len())` and
`gen_range(0..reduced.len() - 1)`. -/
def randomPair (l : List RelEntry) (r1 r2 : Nat) : Option (Nat × Nat) :=
  let red := reduced l
  if red.length < 2 then none
  else if r2 ≥ r1 then some (red.getD r1 0, red.getD (r2 + 1) 0)
  else some (red.getD r1 0, red.getD r2 0)

/-- `RelVec::min_pair`.  `r1` is drawn with `gen_range(0..mins.len())`,
`r2` with `gen_range(0..reduced.len() - 1)`.  NOTE (faithful to the
source): `i1` and `i2` here are *entry indices* (`mins[..]`, `reduced[..]`),
yet the code compares them and adds `1` to `i2` directly — unlike
`random_pair`, which shifts the *position* before indexing `reduced`. -/
def minPair (l : List RelEntry) (r1 r2 : Nat) : Option (Nat × Nat) :=
  let red := reduced l
  let mins := minVotes l
  if red.length < 2 then none
  else
    let i1 := mins.getD r1 0
    let i2 := red.getD r2 0
    if i2 ≥ i1 then some (i1, i2 + 1) else some (i1, i2)

/-- The tolerance test inside `RelVec::equal_pair`:
`(self[b].percentage() - self[a].percentage()).abs() < f64::EPSILON`. -/
def eqCheck (l : List RelEntry) (a b : Nat) : Bool :=
  F64.flt (F64.abs (F64.sub (percentage (l.getD b default))
    (percentage (l.getD a default)))) f64Epsilon

/-- The double loop of `RelVec::equal_pair` over the shuffled index list:
for each `i1` in order, scan the later `i2` in order and return the first
pair passing the epsilon test. -/
def findEqPair (l : List RelEntry) : List Nat → Option (Nat × Nat)
  | [] => none
  | a :: rest =>
    match rest.find? (fun b => eqCheck l a b) with
    | some b => some (a, b)
    | none => findEqPair l rest

/-- `RelVec::equal_pair`.  `sh` is the result of shuffling `reduced`
(the theorems quantify over every permutation of `reduced l`). -/
def equalPair (l : List RelEntry) (sh : List Nat) : Option (Nat × Nat) :=
  if (reduced l).length < 2 then none else findEqPair l sh

/-! ### Persistence

`RelVec::save` writes `serde_json::to_writer` of the entry vector and
`RelVec::load` reads it back with `serde_json::from_reader`.  The
repository code contributes the serde attributes on `RelEntry` — field
tags `n`/`w`/`v`/`l` with `#[serde(default)]` on `w`, `v`, `l` — so the
formats are modelled at the JSON-value level (text formatting and
parsing belong to the external `serde_json` crate). -/

/-- A JSON value, as far as the save format needs. -/
inductive Json where
  | str : String → Json
  | num : Nat → Json
  | jbool : Bool → Json
  | arr : List Json → Json
  | obj : List (String × Json) → Json

/-- Serialization of one entry under the serde attributes of `RelEntry`:
an object with the renamed fields `n`, `w`, `v`, `l`, all present. -/
def encodeEntry (e : RelEntry) : Json :=
  .obj [("n", .str e.name), ("w", .num e.wins), ("v", .num e.votes),
        ("l", .jbool e.locked)]

/-- `RelVec::save`: the serialized entry list. -/
def saveJson (l : List RelEntry) : Json :=
  .arr (l.map encodeEntry)

/-- serde: expect a JSON string. -/
def asStr : Json → Option String
  | .str s => some s
  | _ => none

/-- serde: expect a JSON number in `u32` range. -/
def asU32 : Json → Option Nat
  | .num n => if n < 2 ^ 32 then some n else none
  | _ => none

/-- serde: expect a JSON boolean. -/
def asBool : Json → Option Bool
  | .jbool b => some b
  | _ => none

/-- First field with the given tag, if any. -/
def getField (fs : List (String × Json)) (k : String) : Option Json :=
  (fs.find? (fun q => q.1 == k)).map (fun q => q.2)

/-- Deserialization of one entry: `n` is required, `w`, `v`, `l` fall
back to their `#[serde(default)]` values `0`, `0`, `false`. -/
def decodeEntry (j : Json) : Option RelEntry :=
  match j with
  | .obj fs => do
    let n ← (getField fs "n").bind asStr
    let w ← match getField fs "w" with
      | none => some 0
      | some x => asU32 x
    let v ← match getField fs "v" with
      | none => some 0
      | some x => asU32 x
    let lk ← match getField fs "l" with
      | none => some false
      | some x => asBool x
    some ⟨n, w, v, lk⟩
  | _ => none

/-- Elementwise, fail-fast deserialization of a JSON sequence, as serde
does for `Vec<RelEntry>`. -/
def decodeList : List Json → Option (List RelEntry)
  | [] => some []
  | j :: js => do
    let e ← decodeEntry j
    let rest ← decodeList js
    some (e :: rest)

/-- `RelVec::load`: deserialize the entry list. -/
def loadJson (j : Json) : Option (List RelEntry) :=
  match j with
  | .arr js => decodeList js
  | _ => none

/-- Errors of the binary loader, mirroring the spec's error taxonomy:
I/O failure, format (magic-prefix) mismatch, generic decode failure. -/
inductive LoadError where
  | ioFailure : LoadError
  | formatMismatch : LoadError
  | decodeFailure : LoadError
deriving DecidableEq

/-- Modelled from the spec: the loader of the compact binary encoding is
not present under `src/` (only the JSON loader and the plain-name import
are).  Per the spec it reads a fixed 2-byte magic (`0xAD 0x2A`), fails
with the distinct format-mismatch error when the leading bytes differ,
and only otherwise hands the remaining bytes to the body decoder
(abstract here: any function from bytes to entries-or-decode-failure). -/
def loadBinary (decodeBody : List Nat → Option (List RelEntry))
    (bytes : List Nat) : Except LoadError (List RelEntry) :=
  match bytes with
  | b0 :: b1 :: body =>
    if b0 = 0xAD ∧ b1 = 0x2A then
      match decodeBody body with
      | some entries => .ok entries
      | none => .error .decodeFailure
    else .error .formatMismatch
  | _ => .error .formatMismatch

/-- The enumerated unlocked entries of the list: what the `min_votes`
loop iterates over after skipping locked entries.  Its index projection
is exactly `reduced`. -/
def activeEnum (l : List RelEntry) : List (Nat × RelEntry) :=
  l.enum.filter (fun p => !p.2.locked)

/-- The minimum votes count over the unlocked entries, as the
`min_votes` loop accumulates it: a running `min` started at
`u32::max_value()`. -/
def specMinActiveVotes (l : List RelEntry) : Nat :=
  ((activeEnum l).map (fun p => p.2.votes)).foldl min (2 ^ 32 - 1)

/-! ### Helper lemmas -/

/-- The indices produced by `reduced` are strictly increasing. -/
theorem reduced_pairwise (l : List RelEntry) : (reduced l).Pairwise (· < ·) := by
  have h1 : Sublist ((l.enum.filter (fun p => !p.2.locked)).map Prod.fst)
      (l.enum.map Prod.fst) :=
    (List.filter_sublist _).map Prod.fst
  rw [List.enum_map_fst] at h1
  exact (List.pairwise_lt_range _).sublist h1

/-- Any member of `reduced l` is a valid index of an unlocked entry. -/
theorem mem_reduced {l : List RelEntry} {i : Nat} (h : i ∈ reduced l) :
    i < l.length ∧ l.getD i default ∈ l ∧ (l.getD i default).locked = false := by
  unfold reduced at h
  obtain ⟨⟨a, b⟩, hp, rfl⟩ := List.mem_map.mp h
  obtain ⟨hpe, hlk⟩ := List.mem_filter.mp hp
  simp only
  have henum : l[a]? = some b := List.mk_mem_enum_iff_getElem?.mp hpe
  have hlen : a < l.length := by
    obtain ⟨h', -⟩ := List.getElem?_eq_some_iff.mp henum
    exact h'
  have hgetD : l.getD a default = b := by
    rw [List.getD_eq_getElem?_getD, henum, Option.getD_some]
  refine ⟨hlen, ?_, ?_⟩
  · rw [hgetD]; exact List.getElem?_mem henum
  · rw [hgetD]; simpa using hlk

/-- Distinct valid positions of `reduced l` hold distinct indices. -/
theorem reduced_getD_ne {l : List RelEntry} {p q : Nat}
    (hp : p < (reduced l).length) (hq : q < (reduced l).length) (hpq : p ≠ q) :
    (reduced l).getD p 0 ≠ (reduced l).getD q 0 := by
  have hpw := List.pairwise_iff_getElem.mp (reduced_pairwise l)
  rw [List.getD_eq_getElem?_getD, List.getD_eq_getElem?_getD,
    List.getElem?_eq_getElem hp, List.getElem?_eq_getElem hq,
    Option.getD_some, Option.getD_some]
  rcases Nat.lt_or_ge p q with hlt | hge
  · exact Nat.ne_of_lt (hpw p q hp hq hlt)
  · have hlt : q < p := Nat.lt_of_le_of_ne hge (Ne.symm hpq)
    exact (Nat.ne_of_lt (hpw q p hq hp hlt)).symm

/-- A pair of the active enumeration carries an entry of the list. -/
theorem snd_mem_of_mem_activeEnum {l : List RelEntry} {p : Nat × RelEntry}
    (h : p ∈ activeEnum l) : p.2 ∈ l := by
  obtain ⟨a, b⟩ := p
  have henum : (a, b) ∈ l.enum := (List.mem_filter.mp h).1
  exact List.getElem?_mem (List.mk_mem_enum_iff_getElem?.mp henum)

/-! ### Claim theorems -/

/-- C1: the claim says every pair-selection strategy returns only
unlocked entries.  `min_pair` violates this: with entries
`[unlocked, locked, unlocked]` (all zero votes) and the valid random
draws `r1 = 0` (of `mins.len() = 2`) and `r2 = 0`
(of `reduced.len() - 1 = 1`), it returns the pair `(0, 1)` — and entry
`1` is locked.  The cause: `min_pair` adds `1` to the *entry index*
`reduced[r2]` on collision, where `random_pair` correctly shifts the
*position* before indexing `reduced`. -/
theorem c1_min_pair_selects_locked :
    minPair [⟨"a", 0, 0, false⟩, ⟨"b", 0, 0, true⟩, ⟨"c", 0, 0, false⟩] 0 0
      = some (0, 1)
    ∧ (([⟨"a", 0, 0, false⟩, ⟨"b", 0, 0, true⟩,
        ⟨"c", 0, 0, false⟩] : List RelEntry).getD 1 default).locked = true
    ∧ 0 < (minVotes [⟨"a", 0, 0, false⟩, ⟨"b", 0, 0, true⟩,
        ⟨"c", 0, 0, false⟩]).length
    ∧ 0 < (reduced [⟨"a", 0, 0, false⟩, ⟨"b", 0, 0, true⟩,
        ⟨"c", 0, 0, false⟩]).length - 1 := by
  decide

/-- C2 (counterexample): the claim says a zero-vote entry never precedes
a positive-vote entry after `sort_percentage`.  But `compare_percentage`
makes a zero-vote, zero-wins entry compare `Equal` to everything (both
cross products are `0`), and the sort is stable, so the zero-vote entry
`"a"` stays in front of `"b"` (1 win / 2 votes). -/
theorem c2_counterexample :
    sortPercentage [⟨"a", 0, 0, false⟩, ⟨"b", 1, 2, false⟩]
      = [⟨"a", 0, 0, false⟩, ⟨"b", 1, 2, false⟩]
    ∧ (⟨"a", 0, 0, false⟩ : RelEntry).votes = 0
    ∧ 0 < (⟨"b", 1, 2, false⟩ : RelEntry).votes := by
  decide

/-- C2 (amended): `compare_percentage` compares the `u32` cross products
`wins * other.votes` and `other.wins * votes`; for an entry with
`wins = 0` and `votes = 0` both products are `0` against every other
entry, so it compares `Equal` in both directions — the stable
`sort_percentage` therefore leaves such an entry wherever it started
instead of placing it after numeric entries. -/
theorem c2_zero_vote_compares_equal (z e : RelEntry)
    (h0 : z.wins = 0) (h1 : z.votes = 0) :
    comparePercentage z e = Ordering.eq ∧ comparePercentage e z = Ordering.eq := by
  unfold comparePercentage
  rw [h0, h1, Nat.zero_mul, Nat.mul_zero]
  constructor <;> rfl

theorem c2_zero_vote_compares_equal_witness :
    comparePercentage ⟨"z", 0, 0, false⟩ ⟨"b", 1, 2, false⟩ = Ordering.eq
    ∧ comparePercentage ⟨"b", 1, 2, false⟩ ⟨"z", 0, 0, false⟩ = Ordering.eq :=
  c2_zero_vote_compares_equal ⟨"z", 0, 0, false⟩ ⟨"b", 1, 2, false⟩ rfl rfl

/-- C3 (counterexample): the claim says `percentage()` is NaN whenever
`votes == 0`.  For an entry with `wins = 1, votes = 0` the computation
is `100.0 / 0.0 = +∞`, not NaN. -/
theorem c3_counterexample :
    percentage ⟨"x", 1, 0, false⟩ = F64.inf ∧ F64.inf ≠ F64.nan := by
  constructor
  · rfl
  · intro h; cases h

/-- C3 (amended): for entries satisfying the documented `wins ≤ votes`
invariant, `percentage()` is NaN exactly when `votes = 0`, and for
`votes > 0` it is the float quotient `100 * wins / votes` (kept exact in
the model); an invariant-violating entry with `wins > 0, votes = 0`
yields `+∞` instead of NaN. -/
theorem c3_percentage_spec (e : RelEntry) (hwv : e.wins ≤ e.votes) :
    (e.votes = 0 → percentage e = F64.nan)
    ∧ (0 < e.votes →
        percentage e = F64.val ((100 * e.wins : ℚ) / (e.votes : ℚ))) := by
  constructor
  · intro h
    have hw : e.wins = 0 := Nat.le_zero.mp (h ▸ hwv)
    simp [percentage, h, hw]
  · intro h
    simp [percentage, Nat.pos_iff_ne_zero.mp h]

theorem c3_percentage_spec_witness :
    percentage ⟨"a", 1, 2, false⟩
      = F64.val ((100 * ((1 : Nat) : ℚ)) / ((2 : Nat) : ℚ)) :=
  (c3_percentage_spec ⟨"a", 1, 2, false⟩ (by decide)).2 (by decide)

/-- C4: a byte stream not starting with the magic `0xAD 0x2A` (including
streams shorter than 2 bytes) makes the binary loader fail with the
format-mismatch error — for *every* body decoder, i.e. before the body
is ever consulted — and that error is distinct from the generic decode
failure. -/
theorem c4_bad_magic_format_mismatch
    (decodeBody : List Nat → Option (List RelEntry)) (bytes : List Nat)
    (h : ∀ b0 b1 rest, bytes = b0 :: b1 :: rest → ¬(b0 = 0xAD ∧ b1 = 0x2A)) :
    loadBinary decodeBody bytes = .error .formatMismatch
    ∧ LoadError.formatMismatch ≠ LoadError.decodeFailure := by
  refine ⟨?_, by intro hc; cases hc⟩
  match bytes with
  | [] => rfl
  | [b] => rfl
  | b0 :: b1 :: rest =>
    simp only [loadBinary, if_neg (h b0 b1 rest rfl)]

theorem c4_bad_magic_format_mismatch_witness :
    loadBinary (fun _ => some []) [0x00, 0x00] = .error .formatMismatch
    ∧ LoadError.formatMismatch ≠ LoadError.decodeFailure :=
  c4_bad_magic_format_mismatch (fun _ => some []) [0x00, 0x00]
    (by intro b0 b1 rest he; cases he; decide)

/-- C8: `remove(predicate)` keeps an order-preserving subsequence, its
result holds exactly the original entries not satisfying the predicate,
and it is idempotent. -/
theorem c8_remove_spec (p : RelEntry → Bool) (l : List RelEntry) :
    Sublist (removeEntries p l) l
    ∧ (∀ e, e ∈ removeEntries p l ↔ e ∈ l ∧ p e = false)
    ∧ removeEntries p (removeEntries p l) = removeEntries p l := by
  refine ⟨List.filter_sublist _, ?_, ?_⟩
  · intro e
    simp [removeEntries, List.mem_filter]
  · simp [removeEntries, List.filter_filter]

theorem c8_remove_spec_witness :
    Sublist (removeEntries (fun e => e.name.length == 3)
        [⟨"abc", 0, 0, false⟩]) [⟨"abc", 0, 0, false⟩]
    ∧ (∀ e, e ∈ removeEntries (fun e => e.name.length == 3)
          [⟨"abc", 0, 0, false⟩]
        ↔ e ∈ [(⟨"abc", 0, 0, false⟩ : RelEntry)]
          ∧ (e.name.length == 3) = false)
    ∧ removeEntries (fun e => e.name.length == 3)
        (removeEntries (fun e => e.name.length == 3) [⟨"abc", 0, 0, false⟩])
      = removeEntries (fun e => e.name.length == 3) [⟨"abc", 0, 0, false⟩] :=
  c8_remove_spec (fun e => e.name.length == 3) [⟨"abc", 0, 0, false⟩]

/-- C9: the cross products in `compare_percentage` are `u32`
multiplications, wrapping modulo `2^32`.  For the concrete entries
`a = 65536/65536` (100%) and `b = 65535/65536` (≈ 99.998%), the product
`a.wins * b.votes = 2^32` exceeds `u32::MAX` and wraps to `0`, so the
function answers `Less` although `a`'s exact win percentage is the
greater one. -/
theorem c9_overflow_disagrees :
    comparePercentage ⟨"a", 65536, 65536, false⟩ ⟨"b", 65535, 65536, false⟩
      = Ordering.lt
    ∧ 2 ^ 32 - 1 < (⟨"a", 65536, 65536, false⟩ : RelEntry).wins
        * (⟨"b", 65535, 65536, false⟩ : RelEntry).votes
    ∧ ((100 * (⟨"b", 65535, 65536, false⟩ : RelEntry).wins : ℚ)
          / ((⟨"b", 65535, 65536, false⟩ : RelEntry).votes : ℚ))
        < ((100 * (⟨"a", 65536, 65536, false⟩ : RelEntry).wins : ℚ)
          / ((⟨"a", 65536, 65536, false⟩ : RelEntry).votes : ℚ)) := by
  refine ⟨by decide, by decide, by norm_num⟩

/-- C7: with fewer than two unlocked entries `random_pair` returns
`None`; otherwise, for every pair of in-range values drawn by the two
`gen_range` calls, it returns `Some` pair of two distinct members of the
active subset `reduced`, the first at position `r1`, the second at
position `r2` shifted up by one exactly when `r2` collides with or
passes `r1` (the exclude-first-then-shift technique). -/
theorem c7_random_pair_spec (l : List RelEntry) (r1 r2 : Nat) :
    ((reduced l).length < 2 → randomPair l r1 r2 = none)
    ∧ (2 ≤ (reduced l).length → r1 < (reduced l).length →
        r2 < (reduced l).length - 1 →
        randomPair l r1 r2
            = some ((reduced l).getD r1 0,
                (reduced l).getD (if r1 ≤ r2 then r2 + 1 else r2) 0)
          ∧ (reduced l).getD r1 0 ∈ reduced l
          ∧ (reduced l).getD (if r1 ≤ r2 then r2 + 1 else r2) 0 ∈ reduced l
          ∧ (reduced l).getD r1 0
              ≠ (reduced l).getD (if r1 ≤ r2 then r2 + 1 else r2) 0) := by
  constructor
  · intro h
    simp [randomPair, h]
  · intro h2 hr1 hr2
    have hlen0 : 0 < (reduced l).length := Nat.lt_of_lt_of_le (by decide) h2
    have hnotlt : ¬((reduced l).length < 2) := Nat.not_lt.mpr h2
    have hshift : (if r1 ≤ r2 then r2 + 1 else r2) < (reduced l).length := by
      by_cases hc : r1 ≤ r2
      · simp only [if_pos hc]
        exact Nat.add_lt_of_lt_sub hr2
      · simp only [if_neg hc]
        exact Nat.lt_of_lt_of_le (Nat.lt_of_lt_of_le (Nat.lt_of_not_le hc) hr1.le)
          (Nat.le_refl _)
    have hne : r1 ≠ (if r1 ≤ r2 then r2 + 1 else r2) := by
      by_cases hc : r1 ≤ r2
      · simp only [if_pos hc]
        exact Nat.ne_of_lt (Nat.lt_succ_of_le hc)
      · simp only [if_neg hc]
        exact (Nat.ne_of_lt (Nat.lt_of_not_le hc)).symm
    have hmem : ∀ p, p < (reduced l).length → (reduced l).getD p 0 ∈ reduced l := by
      intro p hp
      rw [List.getD_eq_getElem?_getD, List.getElem?_eq_getElem hp, Option.getD_some]
      exact List.getElem_mem _
    refine ⟨?_, hmem r1 hr1, hmem _ hshift, reduced_getD_ne hr1 hshift hne⟩
    by_cases hc : r1 ≤ r2
    · have : r2 ≥ r1 := hc
      simp [randomPair, hnotlt, this, hc]
    · have : ¬(r2 ≥ r1) := fun hcon => hc hcon
      simp [randomPair, hnotlt, this, hc]

theorem c7_random_pair_spec_witness :
    randomPair [⟨"abc", 0, 0, false⟩, ⟨"locked", 0, 0, true⟩,
        ⟨"def", 0, 0, false⟩] 0 0
        = some ((reduced [⟨"abc", 0, 0, false⟩, ⟨"locked", 0, 0, true⟩,
            ⟨"def", 0, 0, false⟩]).getD 0 0,
          (reduced [⟨"abc", 0, 0, false⟩, ⟨"locked", 0, 0, true⟩,
            ⟨"def", 0, 0, false⟩]).getD (if (0 : Nat) ≤ 0 then 0 + 1 else 0) 0)
    ∧ (reduced [⟨"abc", 0, 0, false⟩, ⟨"locked", 0, 0, true⟩,
        ⟨"def", 0, 0, false⟩]).getD 0 0
      ∈ reduced [⟨"abc", 0, 0, false⟩, ⟨"locked", 0, 0, true⟩,
        ⟨"def", 0, 0, false⟩]
    ∧ (reduced [⟨"abc", 0, 0, false⟩, ⟨"locked", 0, 0, true⟩,
        ⟨"def", 0, 0, false⟩]).getD (if (0 : Nat) ≤ 0 then 0 + 1 else 0) 0
      ∈ reduced [⟨"abc", 0, 0, false⟩, ⟨"locked", 0, 0, true⟩,
        ⟨"def", 0, 0, false⟩]
    ∧ (reduced [⟨"abc", 0, 0, false⟩, ⟨"locked", 0, 0, true⟩,
        ⟨"def", 0, 0, false⟩]).getD 0 0
      ≠ (reduced [⟨"abc", 0, 0, false⟩, ⟨"locked", 0, 0, true⟩,
        ⟨"def", 0, 0, false⟩]).getD (if (0 : Nat) ≤ 0 then 0 + 1 else 0) 0 :=
  (c7_random_pair_spec [⟨"abc", 0, 0, false⟩, ⟨"locked", 0, 0, true⟩,
      ⟨"def", 0, 0, false⟩] 0 0).2 (by decide) (by decide) (by decide)

theorem foldlMin_le_init (xs : List Nat) (a : Nat) : xs.foldl min a ≤ a := by
  induction xs generalizing a with
  | nil => exact Nat.le_refl _
  | cons x xs ih =>
    exact Nat.le_trans (ih (min a x)) (Nat.min_le_left _ _)

theorem foldlMin_le_mem {xs : List Nat} {x : Nat} (h : x ∈ xs) (a : Nat) :
    xs.foldl min a ≤ x := by
  induction xs generalizing a with
  | nil => cases h
  | cons y ys ih =>
    rcases List.mem_cons.mp h with rfl | h'
    · exact Nat.le_trans (foldlMin_le_init ys (min a x)) (Nat.min_le_right _ _)
    · exact ih h' _

theorem foldlMin_eq_init_or_mem (xs : List Nat) (a : Nat) :
    xs.foldl min a = a ∨ xs.foldl min a ∈ xs := by
  induction xs generalizing a with
  | nil => exact Or.inl rfl
  | cons x xs ih =>
    rcases ih (min a x) with h | h
    · rw [List.foldl_cons, h]
      rcases Nat.le_total a x with hle | hle
      · exact Or.inl (Nat.min_eq_left hle)
      · exact Or.inr (by rw [Nat.min_eq_right hle]; exact List.mem_cons_self _ _)
    · exact Or.inr (List.mem_cons_of_mem _ h)

/-- Closed form of the `min_votes` loop: over any remaining enumerated
entries `ps`, running minimum `m` and accumulator `v`, the loop yields
the indices of the unlocked remainder whose votes equal the combined
minimum — discarding `v` exactly when the remainder improves on `m`. -/
theorem minVotesGo_spec (ps : List (Nat × RelEntry)) (m : Nat) (v : List Nat) :
    minVotesGo ps m v =
      (let A := ps.filter (fun p => !p.2.locked)
       let m' := (A.map (fun p => p.2.votes)).foldl min m
       if m' < m then (A.filter (fun p => p.2.votes = m')).map Prod.fst
       else v ++ (A.filter (fun p => p.2.votes = m)).map Prod.fst) := by
  induction ps generalizing m v with
  | nil =>
    simp [minVotesGo]
  | cons p ps ih =>
    obtain ⟨i, e⟩ := p
    by_cases hlk : e.locked
    · simp only [minVotesGo, if_pos hlk, List.filter_cons, hlk]
      simpa using ih m v
    · have hlk' : (!e.locked) = true := by simp [hlk]
      rcases Nat.lt_trichotomy e.votes m with hv | hv | hv
      · -- strictly smaller: accumulator resets to [i]
        simp only [minVotesGo, if_neg hlk, if_pos hv]
        rw [ih e.votes [i]]
        simp only [List.filter_cons, hlk', if_pos, List.map_cons, List.foldl_cons]
        have hmin : min m e.votes = e.votes := Nat.min_eq_right hv.le
        rw [hmin]
        set A := ps.filter (fun p => !p.2.locked) with hA
        set m2 := (A.map (fun p => p.2.votes)).foldl min e.votes with hm2
        have hm2le : m2 ≤ e.votes := foldlMin_le_init _ _
        have hm2m : m2 < m := Nat.lt_of_le_of_lt hm2le hv
        rw [if_pos hm2m]
        rcases Nat.lt_or_ge m2 e.votes with hcase | hcase
        · rw [if_pos hcase]
          have hne : ¬(e.votes = m2) := fun hc => Nat.lt_irrefl _ (hc ▸ hcase)
          simp [hne]
        · have heq : m2 = e.votes := Nat.le_antisymm hm2le hcase
          rw [if_neg (by rw [heq]; exact Nat.lt_irrefl _)]
          simp [heq]
      · -- equal: index appended
        have hnlt : ¬(e.votes < m) := by rw [hv]; exact Nat.lt_irrefl m
        simp only [minVotesGo, if_neg hlk, if_neg hnlt, if_pos hv]
        rw [ih m (v ++ [i])]
        simp only [List.filter_cons, hlk', if_pos, if_true, List.map_cons,
          List.foldl_cons]
        have hmin : min m e.votes = m := by rw [hv]; exact Nat.min_self m
        rw [hmin]
        set A := ps.filter (fun p => !p.2.locked) with hA
        set m2 := (A.map (fun p => p.2.votes)).foldl min m with hm2
        rcases Nat.lt_or_ge m2 m with hcase | hcase
        · rw [if_pos hcase, if_pos hcase]
          have hne : ¬(e.votes = m2) := by
            rw [hv]; exact fun hc => Nat.lt_irrefl _ (hc ▸ hcase)
          simp [hne]
        · have hnc : ¬(m2 < m) := Nat.not_lt.mpr hcase
          rw [if_neg hnc, if_neg hnc]
          simp [hv]
      · -- strictly larger: ignored
        have hnlt : ¬(e.votes < m) := Nat.lt_asymm hv
        have hne0 : ¬(e.votes = m) := fun hc => Nat.lt_irrefl _ (hc ▸ hv)
        simp only [minVotesGo, if_neg hlk, if_neg hnlt, if_neg hne0]
        rw [ih m v]
        simp only [List.filter_cons, hlk', if_pos, if_true, List.map_cons,
          List.foldl_cons]
        have hmin : min m e.votes = m := Nat.min_eq_left hv.le
        rw [hmin]
        set A := ps.filter (fun p => !p.2.locked) with hA
        set m2 := (A.map (fun p => p.2.votes)).foldl min m with hm2
        have hm2le : m2 ≤ m := foldlMin_le_init _ _
        rcases Nat.lt_or_ge m2 m with hcase | hcase
        · rw [if_pos hcase, if_pos hcase]
          have hne : ¬(e.votes = m2) :=
            fun hc => Nat.lt_irrefl _ (Nat.lt_trans (hc ▸ hcase) hv)
          simp [hne]
        · have hnc : ¬(m2 < m) := Nat.not_lt.mpr hcase
          rw [if_neg hnc, if_neg hnc]
          simp [hne0]

/-- C6: assuming every votes count fits in `u32` (true of the Rust
values), `min_votes` returns exactly the indices of the unlocked entries
whose votes equal `specMinActiveVotes` — which is a lower bound of all
unlocked votes counts and is attained by some unlocked entry whenever
one exists — and the returned indices are strictly increasing.  Locked
entries take part neither in the minimum nor in the result. -/
theorem c6_min_votes_spec (l : List RelEntry)
    (hb : ∀ e ∈ l, e.votes ≤ 2 ^ 32 - 1) :
    minVotes l
      = ((activeEnum l).filter
          (fun p => p.2.votes = specMinActiveVotes l)).map Prod.fst
    ∧ (minVotes l).Pairwise (· < ·)
    ∧ (∀ p ∈ activeEnum l, specMinActiveVotes l ≤ p.2.votes)
    ∧ (activeEnum l ≠ [] →
        ∃ p ∈ activeEnum l, p.2.votes = specMinActiveVotes l) := by
  have hlow : ∀ p ∈ activeEnum l, specMinActiveVotes l ≤ p.2.votes := by
    intro p hp
    exact foldlMin_le_mem (List.mem_map_of_mem _ hp) _
  have hmain : minVotes l
      = ((activeEnum l).filter
          (fun p => p.2.votes = specMinActiveVotes l)).map Prod.fst := by
    unfold minVotes
    rw [minVotesGo_spec]
    simp only
    by_cases h : specMinActiveVotes l < 2 ^ 32 - 1
    · rw [if_pos (by exact h)]
      rfl
    · rw [if_neg (by exact h)]
      have heq : specMinActiveVotes l = 2 ^ 32 - 1 :=
        Nat.le_antisymm (foldlMin_le_init _ _) (Nat.not_lt.mp h)
      rw [List.nil_append]
      unfold activeEnum
      rw [← heq]
  refine ⟨hmain, ?_, hlow, ?_⟩
  · rw [hmain]
    have hsl : Sublist (((activeEnum l).filter
        (fun p => p.2.votes = specMinActiveVotes l)).map Prod.fst)
        (l.enum.map Prod.fst) :=
      ((List.filter_sublist _).trans (List.filter_sublist _)).map Prod.fst
    rw [List.enum_map_fst] at hsl
    exact (List.pairwise_lt_range _).sublist hsl
  · intro hne
    rcases foldlMin_eq_init_or_mem
        ((activeEnum l).map (fun p => p.2.votes)) (2 ^ 32 - 1) with h | h
    · obtain ⟨p, hp⟩ := List.exists_mem_of_ne_nil _ hne
      refine ⟨p, hp, ?_⟩
      have h1 : specMinActiveVotes l ≤ p.2.votes := hlow p hp
      have h2 : p.2.votes ≤ 2 ^ 32 - 1 := hb p.2 (snd_mem_of_mem_activeEnum hp)
      have h3 : specMinActiveVotes l = 2 ^ 32 - 1 := h
      omega
    · obtain ⟨p, hp, hv⟩ := List.mem_map.mp h
      exact ⟨p, hp, hv⟩

theorem c6_min_votes_spec_witness :
    minVotes [⟨"abc", 12, 123, false⟩, ⟨"bcd", 125, 123, false⟩,
        ⟨"locked", 0, 0, true⟩, ⟨"cde", 12, 12632, false⟩]
      = ((activeEnum [⟨"abc", 12, 123, false⟩, ⟨"bcd", 125, 123, false⟩,
          ⟨"locked", 0, 0, true⟩, ⟨"cde", 12, 12632, false⟩]).filter
          (fun p => p.2.votes
            = specMinActiveVotes [⟨"abc", 12, 123, false⟩,
                ⟨"bcd", 125, 123, false⟩, ⟨"locked", 0, 0, true⟩,
                ⟨"cde", 12, 12632, false⟩])).map Prod.fst
    ∧ (minVotes [⟨"abc", 12, 123, false⟩, ⟨"bcd", 125, 123, false⟩,
        ⟨"locked", 0, 0, true⟩, ⟨"cde", 12, 12632, false⟩]).Pairwise (· < ·)
    ∧ (∀ p ∈ activeEnum [⟨"abc", 12, 123, false⟩, ⟨"bcd", 125, 123, false⟩,
          ⟨"locked", 0, 0, true⟩, ⟨"cde", 12, 12632, false⟩],
        specMinActiveVotes [⟨"abc", 12, 123, false⟩, ⟨"bcd", 125, 123, false⟩,
          ⟨"locked", 0, 0, true⟩, ⟨"cde", 12, 12632, false⟩] ≤ p.2.votes)
    ∧ (activeEnum [⟨"abc", 12, 123, false⟩, ⟨"bcd", 125, 123, false⟩,
          ⟨"locked", 0, 0, true⟩, ⟨"cde", 12, 12632, false⟩] ≠ [] →
        ∃ p ∈ activeEnum [⟨"abc", 12, 123, false⟩, ⟨"bcd", 125, 123, false⟩,
            ⟨"locked", 0, 0, true⟩, ⟨"cde", 12, 12632, false⟩],
          p.2.votes = specMinActiveVotes [⟨"abc", 12, 123, false⟩,
            ⟨"bcd", 125, 123, false⟩, ⟨"locked", 0, 0, true⟩,
            ⟨"cde", 12, 12632, false⟩]) :=
  c6_min_votes_spec [⟨"abc", 12, 123, false⟩, ⟨"bcd", 125, 123, false⟩,
    ⟨"locked", 0, 0, true⟩, ⟨"cde", 12, 12632, false⟩] (by decide)

/-- A zero-vote entry's percentage is NaN (zero wins) or `+∞`. -/
theorem percentage_zero_votes (e : RelEntry) (h : e.votes = 0) :
    percentage e = F64.nan ∨ percentage e = F64.inf := by
  unfold percentage
  rw [if_pos h]
  by_cases hw : e.wins = 0
  · rw [if_pos hw]; exact Or.inl rfl
  · rw [if_neg hw]; exact Or.inr rfl

/-- The epsilon test of `equal_pair` always fails between two zero-vote
entries: the difference of two values among NaN and `+∞` is NaN (or its
absolute value is `+∞`), and `NaN < ε` and `∞ < ε` are both false. -/
theorem eqCheck_false_of_zero {l : List RelEntry} {a b : Nat}
    (ha : (l.getD a default).votes = 0)
    (hb2 : (l.getD b default).votes = 0) :
    eqCheck l a b = false := by
  unfold eqCheck
  rcases percentage_zero_votes _ ha with h1 | h1 <;>
    rcases percentage_zero_votes _ hb2 with h2 | h2 <;>
      rw [h1, h2] <;> rfl

/-- The scan of `equal_pair` only ever returns a pair that passed the
epsilon test. -/
theorem findEqPair_some {l : List RelEntry} {sh : List Nat} {i j : Nat}
    (h : findEqPair l sh = some (i, j)) : eqCheck l i j = true := by
  induction sh with
  | nil => cases h
  | cons a rest ih =>
    unfold findEqPair at h
    cases hf : rest.find? (fun b => eqCheck l a b) with
    | some b =>
      rw [hf] at h
      cases h
      exact List.find?_some hf
    | none =>
      rw [hf] at h
      exact ih h

/-- When every scanned index holds a zero-vote entry the scan finds
nothing. -/
theorem findEqPair_none {l : List RelEntry} {sh : List Nat}
    (h : ∀ x ∈ sh, (l.getD x default).votes = 0) :
    findEqPair l sh = none := by
  induction sh with
  | nil => rfl
  | cons a rest ih =>
    unfold findEqPair
    have hf : rest.find? (fun b => eqCheck l a b) = none :=
      List.find?_eq_none.mpr (fun b hbm => by
        simp [eqCheck_false_of_zero (h a (List.mem_cons_self _ _))
          (h b (List.mem_cons_of_mem _ hbm))])
    rw [hf]
    exact ih (fun x hx => h x (List.mem_cons_of_mem _ hx))

/-- C10: `equal_pair` never returns a pair of two zero-vote entries —
their percentages are NaN or `+∞`, whose difference never tests below
epsilon — and on a set whose unlocked entries all have zero votes it
returns `None`, whatever order the shuffle produced. -/
theorem c10_equal_pair_zero_votes (l : List RelEntry) (sh : List Nat) :
    (∀ i j, equalPair l sh = some (i, j) →
      ¬((l.getD i default).votes = 0 ∧ (l.getD j default).votes = 0))
    ∧ (sh.Perm (reduced l) → (∀ e ∈ l, e.locked = false → e.votes = 0) →
        equalPair l sh = none) := by
  constructor
  · intro i j h hzero
    unfold equalPair at h
    by_cases hlen : (reduced l).length < 2
    · rw [if_pos hlen] at h; cases h
    · rw [if_neg hlen] at h
      have hchk := findEqPair_some h
      rw [eqCheck_false_of_zero hzero.1 hzero.2] at hchk
      cases hchk
  · intro hperm hz
    unfold equalPair
    by_cases hlen : (reduced l).length < 2
    · rw [if_pos hlen]
    · rw [if_neg hlen]
      apply findEqPair_none
      intro x hx
      have hxr : x ∈ reduced l := hperm.mem_iff.mp hx
      obtain ⟨-, hmem, hlk⟩ := mem_reduced hxr
      exact hz _ hmem hlk

theorem c10_equal_pair_zero_votes_witness :
    equalPair [⟨"a", 0, 0, false⟩, ⟨"b", 0, 0, false⟩] [0, 1] = none :=
  (c10_equal_pair_zero_votes [⟨"a", 0, 0, false⟩, ⟨"b", 0, 0, false⟩]
    [0, 1]).2 (by decide) (by decide)

/-- Decoding undoes encoding on a single entry whose counters are valid
`u32` values. -/
theorem decode_encode (e : RelEntry)
    (hw : e.wins < 2 ^ 32) (hv : e.votes < 2 ^ 32) :
    decodeEntry (encodeEntry e) = some e := by
  have hred : decodeEntry (encodeEntry e)
      = (if e.wins < 2 ^ 32 then some e.wins else none).bind
          (fun w => (if e.votes < 2 ^ 32 then some e.votes else none).bind
            (fun v => some ⟨e.name, w, v, e.locked⟩)) := rfl
  rw [hred, if_pos hw, if_pos hv]
  rfl

/-- C5: saving then loading reproduces the exact entry sequence — same
names, wins, votes and locked flags in the same order — for every list
whose counters are valid `u32` values (as the Rust `u32` fields
guarantee). -/
theorem c5_save_load_roundtrip (l : List RelEntry)
    (hb : ∀ e ∈ l, e.wins < 2 ^ 32 ∧ e.votes < 2 ^ 32) :
    loadJson (saveJson l) = some l := by
  have hlist : ∀ (xs : List RelEntry),
      (∀ e ∈ xs, e.wins < 2 ^ 32 ∧ e.votes < 2 ^ 32) →
      decodeList (xs.map encodeEntry) = some xs := by
    intro xs
    induction xs with
    | nil => intro _; rfl
    | cons e rest ih =>
      intro hall
      have he := hall e (List.mem_cons_self _ _)
      have hrest := ih (fun x hx => hall x (List.mem_cons_of_mem _ hx))
      simp only [List.map_cons, decodeList, decode_encode e he.1 he.2, hrest]
      rfl
  exact hlist l hb

theorem c5_save_load_roundtrip_witness :
    loadJson (saveJson [⟨"abc", 2, 3, false⟩]) = some [⟨"abc", 2, 3, false⟩] :=
  c5_save_load_roundtrip [⟨"abc", 2, 3, false⟩] (by decide)
